import Mathlib

/-!
Verification of the TTML localization pipeline.

This file embeds the translation core of the repository in Lean 4 and proves
the specification claims about it.  The embedded code comes from:

  * `src/engines/translate_llm_engine.py` — `_chunk_by_chars` and
    `CloudTranslateEngine.translate_lines`;
  * `src/engines/gemini_engine.py` — `GeminiTranslator.translate_lines`
    (with its inner `translate_chunk`) and `_fallback_per_line`;
  * `src/ttml_translate.py` — `collect_line_nodes` and `translate_ttml`.

Modelling conventions:

  * Python strings are `String`; `None`-able strings are `Option String`.
  * Python's `str.strip` is modelled character-wise (`pyStrip`) so that it
    evaluates inside the kernel; `Char.isWhitespace` stands for Python's
    whitespace class.
  * The network backends are injected as oracles: a function from the call
    counter (the position of the call in the run) to the call's outcome.
    An outcome covers every behaviour of the real backend — raising an
    exception, returning a non-list JSON value, or returning a JSON array
    of arbitrary length and element types.
  * Exception handling is explicit: a `try`/`except` around a call becomes
    a `match` on the call's outcome.
-/

/-- Python `s.strip()` on the character list of `s`: drop whitespace from
both ends.  Used wherever the source calls `.strip()`. -/
def pyStrip (s : String) : String :=
  String.mk (((s.data.dropWhile Char.isWhitespace).reverse.dropWhile Char.isWhitespace).reverse)

/-- Cumulative character count of a list of lines (the quantity tracked by
`cur_len` in `_chunk_by_chars`). -/
def charSum (xs : List String) : Nat :=
  (xs.map String.length).sum

/-- The loop of `_chunk_by_chars` (src/engines/translate_llm_engine.py,
lines 87–101).  `cur` is the batch under construction and `cur_len` its
cumulative character count; a batch is flushed when the next item would
exceed either bound.  Python's `it or ""` only guards `None` and is the
identity on actual strings, so it is dropped. -/
def chunkLoop (max_chars max_items : Nat) : List String → List String → Nat → List (List String)
  | [], cur, _ => if cur.isEmpty then [] else [cur]
  | it :: rest, cur, cur_len =>
    if cur ≠ [] ∧ (max_chars < cur_len + it.length ∨ max_items ≤ cur.length) then
      cur :: chunkLoop max_chars max_items rest [it] it.length
    else
      chunkLoop max_chars max_items rest (cur ++ [it]) (cur_len + it.length)

/-- `_chunk_by_chars(items, max_chars, max_items)` from
src/engines/translate_llm_engine.py. -/
def _chunk_by_chars (items : List String) (max_chars max_items : Nat) : List (List String) :=
  chunkLoop max_chars max_items items [] 0

/-- Greedy batch boundaries: each batch is followed by an item that could
not have been added to it — the batch is already at the item bound, or the
next batch's first item would push it past the character bound. -/
def greedilyClosed (max_chars max_items : Nat) : List (List String) → Prop
  | [] => True
  | [_] => True
  | a :: b :: rest =>
    (max_items ≤ a.length ∨ max_chars < charSum a + (b.headD "").length)
      ∧ greedilyClosed max_chars max_items (b :: rest)

/-! ## CloudTranslateEngine (src/engines/translate_llm_engine.py, lines 34–84)

The Cloud Translation backend is injected as an oracle mapping the call
counter and the request contents to the list of translated texts in the
response.  The oracle's answer may have any length: the source performs no
validation on it.  `translate_text` raising is not modelled here because
the source does not catch it (it would propagate, outside these claims). -/

/-- `non_empty_indices` from `CloudTranslateEngine.translate_lines`:
indices of the chunk whose entry has non-blank content
(`(s or "").strip() != ""`). -/
def non_empty_indices (chunk : List String) : List Nat :=
  (List.range chunk.length).filter (fun i => decide (pyStrip (chunk.getD i "") ≠ ""))

/-- The rebuild loop `for idx, t in zip(non_empty_indices, translations):
rebuilt[idx] = t`, starting from `rebuilt = list(chunk)`. -/
def applyTranslations (chunk : List String) (pairs : List (Nat × String)) : List String :=
  pairs.foldl (fun acc p => acc.set p.1 p.2) chunk

/-- Reconstruction of one chunk: translated non-blank items written back at
their original indices, original entries elsewhere. -/
def rebuildChunk (chunk translations : List String) : List String :=
  applyTranslations chunk ((non_empty_indices chunk).zip translations)

/-- The chunk loop of `CloudTranslateEngine.translate_lines`: processes the
chunks in order, skipping the backend call when a chunk is entirely blank.
Returns the output lines and the list of request payloads sent. -/
def cloudRun (backend : Nat → List String → List String) :
    List (List String) → Nat → List String × List (List String)
  | [], _ => ([], [])
  | chunk :: rest, k =>
    if (non_empty_indices chunk).isEmpty then
      let r := cloudRun backend rest k
      (chunk ++ r.1, r.2)
    else
      let filtered := (non_empty_indices chunk).map (fun i => chunk.getD i "")
      let r := cloudRun backend rest (k + 1)
      (rebuildChunk chunk (backend k filtered) ++ r.1, filtered :: r.2)

/-- `CloudTranslateEngine.translate_lines(lines, target_language)`:
chunk by `_chunk_by_chars(lines, max_chars=80000, max_items=256)`, then
translate chunk by chunk.  The target language only shapes the request. -/
def cloud_translate_lines (backend : Nat → List String → List String)
    (lines : List String) : List String :=
  if lines.isEmpty then []
  else (cloudRun backend (_chunk_by_chars lines 80000 256) 0).1

/-- The request payloads (`contents` fields) produced by one run of
`CloudTranslateEngine.translate_lines`. -/
def cloud_payloads (backend : Nat → List String → List String)
    (lines : List String) : List (List String) :=
  if lines.isEmpty then []
  else (cloudRun backend (_chunk_by_chars lines 80000 256) 0).2

/-! ## GeminiTranslator (src/engines/gemini_engine.py)

`translate_lines` builds one JSON-array request per chunk and falls back to
recursive bisection, then to a per-line plain-text request.  The backend is
an oracle indexed by the call counter (each `generate_content` call consumes
one counter value), so any sequence of behaviours over a run is expressible.
A batch call's outcome bundles the call itself and `json.loads(resp.text or
"[]")`: an exception anywhere in the `try` block is `exn`; a successful
parse is `ok none` for a non-array JSON value and `ok (some xs)` for an
array.  The recursion of `translate_chunk` is not structural, so it is
embedded with an explicit `fuel` bound on the recursion depth; fuel
exhaustion (`none`) models a non-terminating run of the source. -/

/-- One element of a parsed JSON array response.  `str` is a JSON string;
`other` is any other non-null JSON value, carrying the rendering that
Python's `str()` would give it. -/
inductive JItem : Type where
  | null : JItem
  | str : String → JItem
  | other : String → JItem
deriving DecidableEq

/-- `str(x) if x is not None else ""` applied to one array element. -/
def pyStr : JItem → String
  | JItem.null => ""
  | JItem.str s => s
  | JItem.other r => r

/-- Outcome of one JSON-batch `generate_content` call, seen through
`json.loads(resp.text or "[]")`. -/
inductive BatchOutcome : Type where
  | exn : BatchOutcome
  | ok : Option (List JItem) → BatchOutcome
deriving DecidableEq

/-- Outcome of one plain-text fallback `generate_content` call:
`exn` for a raised exception, otherwise the `resp.text` field. -/
inductive SingleOutcome : Type where
  | exn : SingleOutcome
  | ok : Option String → SingleOutcome
deriving DecidableEq

/-- The injected Gemini backend: the outcome of the `k`-th
`generate_content` call of a run, for either kind of request. -/
structure Oracle : Type where
  batch : Nat → BatchOutcome
  single : Nat → SingleOutcome

/-- `GeminiTranslator._fallback_per_line` (lines 99–118): one plain-text
request per line; the response is `(resp.text or "").strip()`, and a raised
call returns the original line unchanged. -/
def _fallback_per_line (oc : Oracle) : List String → Nat → List String × Nat
  | [], k => ([], k)
  | ln :: rest, k =>
    let head :=
      match oc.single k with
      | SingleOutcome.ok t => pyStrip (t.getD "")
      | SingleOutcome.exn => ln
    let r := _fallback_per_line oc rest (k + 1)
    (head :: r.1, r.2)

/-- The inner `translate_chunk` of `GeminiTranslator.translate_lines`
(lines 72–95), with an explicit recursion-depth fuel.  A valid response
(a list of the batch's length) is accepted element-wise through `pyStr`;
otherwise a singleton batch goes to `_fallback_per_line` and a longer
batch is split at `len(chunk) // 2` into independently retried halves.
Returns the translated lines and the next call counter, or `none` when
the fuel runs out (the source would recurse forever). -/
def translate_chunkF (oc : Oracle) : Nat → List String → Nat → Option (List String × Nat)
  | 0, _, _ => none
  | fuel + 1, chunk, k =>
    let recover : Option (List String × Nat) :=
      if chunk.length = 1 then some (_fallback_per_line oc chunk (k + 1))
      else
        match translate_chunkF oc fuel (chunk.take (chunk.length / 2)) (k + 1) with
        | none => none
        | some lr =>
          match translate_chunkF oc fuel (chunk.drop (chunk.length / 2)) lr.2 with
          | none => none
          | some rr => some (lr.1 ++ rr.1, rr.2)
    match oc.batch k with
    | BatchOutcome.ok (some xs) =>
      if xs.length = chunk.length then some (xs.map pyStr, k + 1) else recover
    | _ => recover

/-- `GeminiTranslator.translate_lines(lines, target_language)`: empty input
returns immediately with no call; otherwise one run of `translate_chunk`
on the whole list.  Fuel `lines.length` is proven sufficient
(`translate_chunkF_some`); the `getD` default is never reached.  The target
language only shapes the prompt text. -/
def gemini_translate_lines (oc : Oracle) (lines : List String) : List String :=
  if lines.isEmpty then []
  else ((translate_chunkF oc lines.length lines 0).getD ([], 0)).1

/-- Termination of one `translate_chunk` run, expressed on the fuelled
embedding: some finite recursion depth completes the computation. -/
def chunkRunTerminates (oc : Oracle) (chunk : List String) : Prop :=
  ∃ fuel out, translate_chunkF oc fuel chunk 0 = some out

/-- A backend that fails every call of either kind. -/
def allFailOracle : Oracle where
  batch := fun _ => BatchOutcome.exn
  single := fun _ => SingleOutcome.exn

/-- A batch response that fails validation: the call raised, the JSON was
not an array, or the array's length differs from the batch's. -/
def invalidResponse (b : BatchOutcome) (n : Nat) : Prop :=
  match b with
  | BatchOutcome.ok (some xs) => xs.length ≠ n
  | _ => True

/-- Backend used as a concrete witness input: the first call raises, later
batch calls answer a fixed singleton array, and plain-text fallback calls
answer a padded string. -/
def mixedOracle : Oracle where
  batch := fun k => if k = 0 then BatchOutcome.exn else BatchOutcome.ok (some [JItem.str "B"])
  single := fun _ => SingleOutcome.ok (some " hola ")

/-- Backend that replaces every batch element: answers the one-element
array ["X"] to every batch call. -/
def blankEchoOracle : Oracle where
  batch := fun _ => BatchOutcome.ok (some [JItem.str "X"])
  single := fun _ => SingleOutcome.exn

/-! ## The TTML extractor/rewriter (src/ttml_translate.py)

An ElementTree element is a tag, an attribute list, optional own text,
optional tail text, and a list of children.  `translate_ttml` parses a
file, finds every paragraph with `root.findall(".//p")`, collects the
text-bearing locations with `collect_line_nodes`, translates all texts in
one call, and writes back with `setattr` only when the lengths match.
The file parsing/serialisation boundary is outside the embedding: the
model starts from the root element.  The `(node, attr)` pairs of the
source are embedded as (path from the root, field) pairs, where the path
lists child indices; writing through a path mutates exactly what the
source's `setattr(node, attr, txt)` mutates, since distinct live nodes
have distinct paths. -/

/-- The two text-bearing fields of an element (the "attr" strings of the source). -/
inductive Attr : Type where
  | text : Attr
  | tail : Attr
deriving DecidableEq

/-- An ElementTree element. -/
inductive Elem : Type where
  | mk (tag : String) (attrs : List (String × String)) (text : Option String)
      (tail : Option String) (children : List Elem)

def Elem.tag : Elem → String
  | Elem.mk t _ _ _ _ => t

def Elem.attrs : Elem → List (String × String)
  | Elem.mk _ a _ _ _ => a

def Elem.text : Elem → Option String
  | Elem.mk _ _ x _ _ => x

def Elem.tail : Elem → Option String
  | Elem.mk _ _ _ x _ => x

def Elem.children : Elem → List Elem
  | Elem.mk _ _ _ _ cs => cs

/-- Read one of the two text fields. -/
def Elem.fieldOf : Elem → Attr → Option String
  | e, Attr.text => Elem.text e
  | e, Attr.tail => Elem.tail e

/-- `_q(tag)`: the TTML-namespace-qualified tag name. -/
def qtag (t : String) : String := "\x7bhttp://www.w3.org/ns/ttml\x7d" ++ t

/-- Resolve a path of child indices to an element. -/
def getAt : List Nat → Elem → Option Elem
  | [], e => some e
  | i :: p, e =>
    match (Elem.children e)[i]? with
    | some c => getAt p c
    | none => none

/-- Overwrite one text field of an element (Python `setattr(node, attr, s)`). -/
def setF (e : Elem) (f : Attr) (s : String) : Elem :=
  match e, f with
  | Elem.mk t a _ tl cs, Attr.text => Elem.mk t a (some s) tl cs
  | Elem.mk t a tx _ cs, Attr.tail => Elem.mk t a tx (some s) cs

/-- Apply a function to the `i`-th element of a list, if present. -/
def setChild : Nat → (Elem → Elem) → List Elem → List Elem
  | _, _, [] => []
  | 0, g, c :: cs => g c :: cs
  | i + 1, g, c :: cs => c :: setChild i g cs

/-- Overwrite the field `f` of the element at `path` with `s`. -/
def setAt : List Nat → Attr → String → Elem → Elem
  | [], f, s, e => setF e f s
  | i :: p, f, s, Elem.mk t a tx tl cs =>
    Elem.mk t a tx tl (setChild i (fun c => setAt p f s c) cs)

mutual

/-- Paths (from the given element) of all its proper descendants with the
qualified `p` tag, in document order — `root.findall(".//p")`. -/
def pPathsE : Elem → List (List Nat)
  | Elem.mk _ _ _ _ cs => pPathsL cs 0

def pPathsL : List Elem → Nat → List (List Nat)
  | [], _ => []
  | c :: cs, i =>
    (if Elem.tag c = qtag "p" then [[i]] else [])
      ++ (pPathsE c).map (fun pa => i :: pa)
      ++ pPathsL cs (i + 1)

end

/-- Python truthiness of `x and x.strip()` for an optional string: the
field exists and is not blank (not empty, not all-whitespace). -/
def nonBlankOpt : Option String → Bool
  | none => false
  | some s => !(pyStrip s == "")

/-- Whether the next sibling (the head of the remaining children) is a
span — `children[idx + 1].tag == _q("span")` in the source. -/
def headIsSpan : List Elem → Bool
  | [] => false
  | c :: _ => Elem.tag c == qtag "span"

/-- The child loop of `collect_line_nodes` (src/ttml_translate.py, lines
50–59): a span child is a line; a br child whose tail is non-blank and
whose next sibling is not a span is a line through its tail. -/
def collectLoop : List Elem → Nat → List (List Nat × Attr)
  | [], _ => []
  | ch :: rest, idx =>
    (if Elem.tag ch == qtag "span" then [([idx], Attr.text)]
     else if Elem.tag ch == qtag "br"
         && nonBlankOpt (Elem.tail ch) && !(headIsSpan rest) then
       [([idx], Attr.tail)]
     else []) ++ collectLoop rest (idx + 1)

/-- `collect_line_nodes(p_elem)` (src/ttml_translate.py, lines 31–61),
with locations as (path relative to the paragraph, field) pairs. -/
def collect_line_nodes (p : Elem) : List (List Nat × Attr) :=
  (if !((Elem.children p).any (fun ch => Elem.tag ch == qtag "span"))
      && nonBlankOpt (Elem.text p) then
    [(([] : List Nat), Attr.text)]
  else [])
    ++ collectLoop (Elem.children p) 0

/-- The lines contributed by the paragraph at path `pp`: its collected
locations rebased to paths from the root. -/
def paraContribution (root : Elem) (pp : List Nat) : List (List Nat × Attr) :=
  match getAt pp root with
  | some p => (collect_line_nodes p).map (fun l => (pp ++ l.1, l.2))
  | none => []

/-- All line locations of the document in document order: the concatenation
of `collect_line_nodes(p)` over `root.findall(".//p")`, rebased to paths
from the root (src/ttml_translate.py, lines 86–88). -/
def line_nodes (root : Elem) : List (List Nat × Attr) :=
  (pPathsE root).flatMap (paraContribution root)

/-- `getattr(node, attr, None) or ""`: the string content of one location
(src/ttml_translate.py, lines 90–92). -/
def fieldVal (root : Elem) (l : List Nat × Attr) : String :=
  match getAt l.1 root with
  | some n => (Elem.fieldOf n l.2).getD ""
  | none => ""

/-- The extracted text sequence handed to the translation function. -/
def docTexts (root : Elem) : List String :=
  (line_nodes root).map (fieldVal root)

/-- The write-back loop `for (node, attr), txt in zip(line_nodes,
translated): setattr(node, attr, txt)`. -/
def writeAll (root : Elem) (ws : List ((List Nat × Attr) × String)) : Elem :=
  ws.foldl (fun acc l => setAt l.1.1 l.1.2 l.2 acc) root

/-- `translate_ttml` (src/ttml_translate.py, lines 64–101), from the parsed
root element: one translation call over all extracted texts; the locations
are rewritten only when the response length matches, else nothing is
written and the count is 0. -/
def translate_ttml (root : Elem) (translate_fn : List String → String → List String)
    (target_language : String) : Elem × Nat :=
  let nodes := line_nodes root
  let texts := docTexts root
  if texts.isEmpty then (root, 0)
  else
    let translated := translate_fn texts target_language
    if translated.length = nodes.length then
      (writeAll root (nodes.zip translated), nodes.length)
    else (root, 0)

/-- Spec-side transcription of claim C2's own-text rule: with at least one
direct span child the container's own leading text is not a location;
otherwise a non-blank own text is one location. -/
def specOwnTextLoc (p : Elem) : List (List Nat × Attr) :=
  if (Elem.children p).any (fun c => Elem.tag c == qtag "span") then []
  else if nonBlankOpt (Elem.text p) then [(([] : List Nat), Attr.text)] else []

/-- Spec-side transcription of claim C2's per-child rule, by child index:
a span child is a location through its text; a line-break child with
non-blank tail whose immediately following sibling is not a span is a
location through its tail. -/
def specChildLoc (children : List Elem) (i : Nat) : List (List Nat × Attr) :=
  match children[i]? with
  | none => []
  | some c =>
    if Elem.tag c == qtag "span" then [([i], Attr.text)]
    else if Elem.tag c == qtag "br"
        && nonBlankOpt (Elem.tail c)
        && !(match children[i + 1]? with
             | some nxt => Elem.tag nxt == qtag "span"
             | none => false) then
      [([i], Attr.tail)]
    else []

/-- Spec-side transcription of claim C2: the own-text location (when
present) followed by the per-child locations interleaved in child order. -/
def collect_line_nodes_spec (p : Elem) : List (List Nat × Attr) :=
  specOwnTextLoc p
    ++ (List.range (Elem.children p).length).flatMap (specChildLoc (Elem.children p))

/-- Claim C5's counterexample document: one paragraph holding one span
whose text is the empty string — every extracted text is blank. -/
def c5Doc : Elem :=
  Elem.mk "tt" [] none none
    [Elem.mk (qtag "p") [] none none
      [Elem.mk (qtag "span") [] (some "") none []]]

/-- A paragraph with no spans, blank own text, and a blank break tail —
the shape that really is skipped. -/
def blankPara : Elem :=
  Elem.mk (qtag "p") [] (some " ") none
    [Elem.mk (qtag "br") [] none (some "  ") []]

/-- A two-paragraph document used as concrete input for the rewrite
claims: two span lines plus a br-tail line. -/
def egDoc : Elem :=
  Elem.mk "tt" [("lang", "en")] none none
    [Elem.mk "body" [] none none
      [Elem.mk (qtag "p") [("begin", "t1")] none none
        [Elem.mk (qtag "span") [] (some "one") none [],
         Elem.mk (qtag "br") [] none (some "two") []],
       Elem.mk (qtag "p") [("begin", "t2")] (some "three") none []]]

/-- Default entry used with `List.getD` over write lists. -/
def dfltW : (List Nat × Attr) × String := (([], Attr.text), "")

theorem chunkLoop_flatten (max_chars max_items : Nat) :
    ∀ (rest cur : List String) (cur_len : Nat),
      (chunkLoop max_chars max_items rest cur cur_len).flatten = cur ++ rest := by
  intro rest
  induction rest with
  | nil =>
    intro cur cur_len
    by_cases h : cur.isEmpty
    · simp [chunkLoop, h, List.isEmpty_iff.mp h]
    · simp [chunkLoop, h]
  | cons it rest ih =>
    intro cur cur_len
    by_cases h : cur ≠ [] ∧ (max_chars < cur_len + it.length ∨ max_items ≤ cur.length)
    · simp [chunkLoop, h, ih]
    · simp [chunkLoop, h, ih]

theorem chunkLoop_ne_nil (max_chars max_items : Nat) :
    ∀ (rest cur : List String) (cur_len : Nat),
      ∀ c ∈ chunkLoop max_chars max_items rest cur cur_len, c ≠ [] := by
  intro rest
  induction rest with
  | nil =>
    intro cur cur_len c hc
    by_cases h : cur.isEmpty
    · simp [chunkLoop, h] at hc
    · simp [chunkLoop, h] at hc
      subst hc
      exact fun hnil => h (List.isEmpty_iff.mpr hnil)
  | cons it rest ih =>
    intro cur cur_len c hc
    by_cases h : cur ≠ [] ∧ (max_chars < cur_len + it.length ∨ max_items ≤ cur.length)
    · simp only [chunkLoop, if_pos h, List.mem_cons] at hc
      rcases hc with rfl | hc
      · exact h.1
      · exact ih _ _ c hc
    · simp only [chunkLoop, if_neg h] at hc
      exact ih _ _ c hc

theorem chunkLoop_le_items (max_chars max_items : Nat) (hmi : 0 < max_items) :
    ∀ (rest cur : List String) (cur_len : Nat), cur.length ≤ max_items →
      ∀ c ∈ chunkLoop max_chars max_items rest cur cur_len, c.length ≤ max_items := by
  intro rest
  induction rest with
  | nil =>
    intro cur cur_len hcur c hc
    by_cases h : cur.isEmpty
    · simp [chunkLoop, h] at hc
    · simp [chunkLoop, h] at hc
      subst hc; exact hcur
  | cons it rest ih =>
    intro cur cur_len hcur c hc
    by_cases h : cur ≠ [] ∧ (max_chars < cur_len + it.length ∨ max_items ≤ cur.length)
    · simp only [chunkLoop, if_pos h, List.mem_cons] at hc
      rcases hc with rfl | hc
      · exact hcur
      · exact ih [it] it.length (by simpa using hmi) c hc
    · simp only [chunkLoop, if_neg h] at hc
      have hlen : (cur ++ [it]).length ≤ max_items := by
        rcases Decidable.em (cur = []) with hnil | hnil
        · subst hnil; simpa using hmi
        · have hlt : cur.length < max_items := by
            rcases Decidable.em (max_items ≤ cur.length) with hle | hle
            · exact absurd ⟨hnil, Or.inr hle⟩ h
            · omega
          simp only [List.length_append, List.length_cons, List.length_nil]
          omega
      exact ih (cur ++ [it]) (cur_len + it.length) hlen c hc

theorem chunkLoop_le_chars (max_chars max_items : Nat) :
    ∀ (rest cur : List String), (1 < cur.length → charSum cur ≤ max_chars) →
      ∀ c ∈ chunkLoop max_chars max_items rest cur (charSum cur),
        1 < c.length → charSum c ≤ max_chars := by
  intro rest
  induction rest with
  | nil =>
    intro cur hcur c hc
    by_cases h : cur.isEmpty
    · simp [chunkLoop, h] at hc
    · simp [chunkLoop, h] at hc
      subst hc; exact hcur
  | cons it rest ih =>
    intro cur hcur c hc
    by_cases h : cur ≠ [] ∧ (max_chars < charSum cur + it.length ∨ max_items ≤ cur.length)
    · simp only [chunkLoop, if_pos h, List.mem_cons] at hc
      rcases hc with rfl | hc
      · exact hcur
      · have : charSum [it] = it.length := by simp [charSum]
        rw [← this] at hc
        exact ih [it] (by simp) c hc
    · simp only [chunkLoop, if_neg h] at hc
      have hsum : charSum (cur ++ [it]) = charSum cur + it.length := by
        simp [charSum]
      rw [← hsum] at hc
      apply ih (cur ++ [it]) _ c hc
      intro hlen
      rw [hsum]
      rcases Decidable.em (cur = []) with hnil | hnil
      · subst hnil; simp at hlen
      · rcases Decidable.em (max_chars < charSum cur + it.length) with hgt | hgt
        · exact absurd ⟨hnil, Or.inl hgt⟩ h
        · omega

theorem chunkLoop_headD (max_chars max_items : Nat) :
    ∀ (rest cur : List String) (cur_len : Nat), cur ≠ [] →
      ((chunkLoop max_chars max_items rest cur cur_len).headD []).headD "" = cur.headD "" := by
  intro rest
  induction rest with
  | nil =>
    intro cur cur_len hcur
    have : ¬ cur.isEmpty := fun h => hcur (List.isEmpty_iff.mp h)
    simp [chunkLoop, this]
  | cons it rest ih =>
    intro cur cur_len hcur
    by_cases h : cur ≠ [] ∧ (max_chars < cur_len + it.length ∨ max_items ≤ cur.length)
    · simp [chunkLoop, h]
    · simp only [chunkLoop, if_neg h]
      rw [ih (cur ++ [it]) _ (by simp)]
      cases cur with
      | nil => exact absurd rfl hcur
      | cons a l => simp

theorem chunkLoop_greedy (max_chars max_items : Nat) :
    ∀ (rest cur : List String),
      greedilyClosed max_chars max_items (chunkLoop max_chars max_items rest cur (charSum cur)) := by
  intro rest
  induction rest with
  | nil =>
    intro cur
    by_cases h : cur.isEmpty
    · simp [chunkLoop, h, greedilyClosed]
    · simp [chunkLoop, h, greedilyClosed]
  | cons it rest ih =>
    intro cur
    by_cases h : cur ≠ [] ∧ (max_chars < charSum cur + it.length ∨ max_items ≤ cur.length)
    · simp only [chunkLoop, if_pos h]
      have hrec := ih [it]
      have hit : charSum [it] = it.length := by simp [charSum]
      rw [hit] at hrec
      cases heq : chunkLoop max_chars max_items rest [it] it.length with
      | nil => simp [greedilyClosed]
      | cons b bs =>
        rw [heq] at hrec
        refine ⟨?_, hrec⟩
        have hb : b.headD "" = it := by
          have h5 := chunkLoop_headD max_chars max_items rest [it] it.length (by simp)
          rw [heq] at h5
          simpa using h5
        rcases h.2 with hgt | hle
        · exact Or.inr (by rw [hb]; exact hgt)
        · exact Or.inl hle
    · simp only [chunkLoop, if_neg h]
      have hsum : charSum (cur ++ [it]) = charSum cur + it.length := by simp [charSum]
      have := ih (cur ++ [it])
      rwa [hsum] at this

/-- Claim C6: `_chunk_by_chars` returns non-empty batches whose in-order
concatenation is the input; every batch has at most `max_items` items;
every batch of more than one item stays within `max_chars` cumulative
characters (a single oversized item forms its own batch); boundaries are
greedy; and with `max_items = 2`, five lines are partitioned `[2, 2, 1]`. -/
theorem chunk_by_chars_partition (items : List String) (max_chars max_items : Nat)
    (hmc : 0 < max_chars) (hmi : 0 < max_items) :
    (_chunk_by_chars items max_chars max_items).flatten = items
    ∧ (∀ c ∈ _chunk_by_chars items max_chars max_items, c ≠ [])
    ∧ (∀ c ∈ _chunk_by_chars items max_chars max_items, c.length ≤ max_items)
    ∧ (∀ c ∈ _chunk_by_chars items max_chars max_items, 1 < c.length → charSum c ≤ max_chars)
    ∧ greedilyClosed max_chars max_items (_chunk_by_chars items max_chars max_items)
    ∧ _chunk_by_chars ["L1", "L2", "L3", "L4", "L5"] 80000 2
        = [["L1", "L2"], ["L3", "L4"], ["L5"]] := by
  refine ⟨?_, ?_, ?_, ?_, ?_, ?_⟩
  · simpa using chunkLoop_flatten max_chars max_items items [] 0
  · exact chunkLoop_ne_nil max_chars max_items items [] 0
  · exact chunkLoop_le_items max_chars max_items hmi items [] 0 (by simp)
  · exact chunkLoop_le_chars max_chars max_items items [] (by simp)
  · exact chunkLoop_greedy max_chars max_items items []
  · decide

theorem chunk_by_chars_partition_witness :
    (_chunk_by_chars ["L1", "L2", "L3", "L4", "L5"] 80000 2).flatten
      = ["L1", "L2", "L3", "L4", "L5"] :=
  (chunk_by_chars_partition ["L1", "L2", "L3", "L4", "L5"] 80000 2
    (by decide) (by decide)).1

theorem applyTranslations_length (pairs : List (Nat × String)) :
    ∀ chunk : List String, (applyTranslations chunk pairs).length = chunk.length := by
  induction pairs with
  | nil => intro chunk; rfl
  | cons p rest ih =>
    intro chunk
    show (applyTranslations (chunk.set p.1 p.2) rest).length = chunk.length
    rw [ih, List.length_set]

theorem applyTranslations_not_mem (pairs : List (Nat × String)) :
    ∀ (chunk : List String) (i : Nat), i ∉ pairs.map Prod.fst →
      (applyTranslations chunk pairs)[i]? = chunk[i]? := by
  induction pairs with
  | nil => intro chunk i _; rfl
  | cons p rest ih =>
    intro chunk i hi
    simp only [List.map_cons, List.mem_cons] at hi
    push_neg at hi
    show (applyTranslations (chunk.set p.1 p.2) rest)[i]? = chunk[i]?
    rw [ih (chunk.set p.1 p.2) i hi.2, List.getElem?_set, if_neg (fun h => hi.1 h.symm)]

theorem getElem?_zip_eq {α β : Type} (l₁ : List α) :
    ∀ (l₂ : List β) (j : Nat),
      (l₁.zip l₂)[j]? =
        match l₁[j]?, l₂[j]? with
        | some a, some b => some (a, b)
        | _, _ => none := by
  induction l₁ with
  | nil => intro l₂ j; cases l₂ <;> cases j <;> simp
  | cons a l ih =>
    intro l₂ j
    cases l₂ with
    | nil => cases j <;> simp
    | cons b l₂ =>
      cases j with
      | zero => simp
      | succ j => simpa using ih l₂ j

theorem non_empty_indices_sound (chunk : List String) (i : Nat) :
    i ∈ non_empty_indices chunk ↔ i < chunk.length ∧ pyStrip (chunk.getD i "") ≠ "" := by
  simp [non_empty_indices, List.mem_filter]

theorem non_empty_indices_nodup (chunk : List String) :
    (non_empty_indices chunk).Nodup :=
  (List.nodup_range _).filter _

theorem rebuild_positionwise (nei : List Nat) :
    ∀ (rs chunk : List String), nei.Nodup → (∀ i ∈ nei, i < chunk.length) →
      ∀ j, j < nei.length →
        (applyTranslations chunk (nei.zip rs))[nei.getD j 0]? =
          if j < rs.length then rs[j]? else chunk[nei.getD j 0]? := by
  induction nei with
  | nil => intro rs chunk _ _ j hj; simp at hj
  | cons i nei ih =>
    intro rs chunk hnd hlt j hj
    cases rs with
    | nil =>
      show (applyTranslations chunk ([] : List (Nat × String)))[_]? = _
      simp [applyTranslations]
    | cons v rs =>
      have hkeys : ∀ x ∈ (nei.zip rs).map Prod.fst, x ∈ nei := by
        intro x hx
        rcases List.mem_map.mp hx with ⟨p, hp, rfl⟩
        exact (List.of_mem_zip hp).1
      cases j with
      | zero =>
        show (applyTranslations (chunk.set i v) (nei.zip rs))[i]? = _
        have hi : i ∉ (nei.zip rs).map Prod.fst := fun h =>
          (List.nodup_cons.mp hnd).1 (hkeys i h)
        rw [applyTranslations_not_mem _ _ _ hi]
        have hilen : i < chunk.length := hlt i (List.mem_cons_self i nei)
        simp [List.getElem?_set, hilen]
      | succ j =>
        show (applyTranslations (chunk.set i v) (nei.zip rs))[nei.getD j 0]? = _
        have hj2 : j < nei.length := by simpa using hj
        have hmem : nei.getD j 0 ∈ nei := by
          rw [List.getD_eq_getElem?_getD, List.getElem?_eq_getElem hj2]
          exact List.getElem_mem hj2
        have hne : nei.getD j 0 ≠ i := fun h =>
          (List.nodup_cons.mp hnd).1 (h ▸ hmem)
        have := ih rs (chunk.set i v) (List.nodup_cons.mp hnd).2
          (fun x hx => by rw [List.length_set]; exact hlt x (List.mem_cons_of_mem _ hx)) j hj2
        rw [this]
        simp only [List.length_cons, List.getElem?_cons_succ, List.getD_cons_succ,
          Nat.add_lt_add_iff_right]
        by_cases hjr : j < rs.length
        · simp [hjr]
        · simp only [if_neg hjr]
          rw [List.getElem?_set, if_neg (fun h => hne h.symm)]

theorem rebuildChunk_length (chunk rs : List String) :
    (rebuildChunk chunk rs).length = chunk.length :=
  applyTranslations_length _ _

theorem rebuildChunk_not_mem (chunk rs : List String) (i : Nat)
    (hi : i ∉ non_empty_indices chunk) :
    (rebuildChunk chunk rs)[i]? = chunk[i]? := by
  apply applyTranslations_not_mem
  intro hmem
  rcases List.mem_map.mp hmem with ⟨p, hp, rfl⟩
  exact hi (List.of_mem_zip hp).1

theorem cloudRun_length (backend : Nat → List String → List String) :
    ∀ (chunks : List (List String)) (k : Nat),
      (cloudRun backend chunks k).1.length = chunks.flatten.length := by
  intro chunks
  induction chunks with
  | nil => intro k; rfl
  | cons chunk rest ih =>
    intro k
    by_cases h : (non_empty_indices chunk).isEmpty
    · simp [cloudRun, h, ih, List.flatten_cons]
    · simp [cloudRun, h, ih, List.flatten_cons, rebuildChunk_length]

theorem cloudRun_blank_preserved (backend : Nat → List String → List String) :
    ∀ (chunks : List (List String)) (k i : Nat) (s : String),
      chunks.flatten[i]? = some s → pyStrip s = "" →
      ((cloudRun backend chunks k).1)[i]? = some s := by
  intro chunks
  induction chunks with
  | nil => intro k i s h _; simp at h
  | cons chunk rest ih =>
    intro k i s hflat hblank
    rw [List.flatten_cons, List.getElem?_append] at hflat
    by_cases hlt : i < chunk.length
    · rw [if_pos hlt] at hflat
      by_cases h : (non_empty_indices chunk).isEmpty
      · simp only [cloudRun, if_pos h]
        rw [List.getElem?_append, if_pos hlt]
        exact hflat
      · simp only [cloudRun, if_neg h]
        rw [List.getElem?_append, if_pos (by rw [rebuildChunk_length]; exact hlt)]
        rw [rebuildChunk_not_mem]
        · exact hflat
        · intro hmem
          have hs : chunk.getD i "" = s := by
            rw [List.getD_eq_getElem?_getD, hflat]
            rfl
          exact ((non_empty_indices_sound chunk i).mp hmem).2 (hs ▸ hblank)
    · rw [if_neg hlt] at hflat
      by_cases h : (non_empty_indices chunk).isEmpty
      · simp only [cloudRun, if_pos h]
        rw [List.getElem?_append, if_neg hlt]
        exact ih k (i - chunk.length) s hflat hblank
      · simp only [cloudRun, if_neg h]
        rw [List.getElem?_append, if_neg (by rw [rebuildChunk_length]; exact hlt),
          rebuildChunk_length]
        exact ih (k + 1) (i - chunk.length) s hflat hblank

theorem cloudRun_payloads_nonblank (backend : Nat → List String → List String) :
    ∀ (chunks : List (List String)) (k : Nat),
      ∀ p ∈ (cloudRun backend chunks k).2, ∀ s ∈ p, pyStrip s ≠ "" := by
  intro chunks
  induction chunks with
  | nil => intro k p hp; simp [cloudRun] at hp
  | cons chunk rest ih =>
    intro k p hp s hs
    by_cases h : (non_empty_indices chunk).isEmpty
    · simp only [cloudRun, if_pos h] at hp
      exact ih k p hp s hs
    · simp only [cloudRun, if_neg h, List.mem_cons] at hp
      rcases hp with rfl | hp
      · rcases List.mem_map.mp hs with ⟨i, hi, rfl⟩
        exact ((non_empty_indices_sound chunk i).mp hi).2
      · exact ih (k + 1) p hp s hs

/-- Claim C9: `CloudTranslateEngine.translate_lines` performs no length
validation on the backend response: the output always has the input's
length; within a chunk the `j`-th response item is written at the `j`-th
non-blank index, and every index beyond the response (and every blank
index) keeps its original text. -/
theorem cloud_positionwise_assignment (backend : Nat → List String → List String)
    (lines : List String) :
    (cloud_translate_lines backend lines).length = lines.length
    ∧ (∀ chunk rs : List String,
        (rebuildChunk chunk rs).length = chunk.length
        ∧ (∀ j, j < (non_empty_indices chunk).length →
            (rebuildChunk chunk rs)[(non_empty_indices chunk).getD j 0]? =
              if j < rs.length then rs[j]?
              else chunk[(non_empty_indices chunk).getD j 0]?)
        ∧ (∀ i, i ∉ non_empty_indices chunk →
            (rebuildChunk chunk rs)[i]? = chunk[i]?)) := by
  constructor
  · by_cases h : lines.isEmpty
    · simp [cloud_translate_lines, h, List.isEmpty_iff.mp h]
    · simp only [cloud_translate_lines, if_neg h]
      rw [cloudRun_length]
      rw [show (_chunk_by_chars lines 80000 256).flatten = lines from
        by simpa using chunkLoop_flatten 80000 256 lines [] 0]
  · intro chunk rs
    refine ⟨rebuildChunk_length chunk rs, ?_, rebuildChunk_not_mem chunk rs⟩
    intro j hj
    exact rebuild_positionwise (non_empty_indices chunk) rs chunk
      (non_empty_indices_nodup chunk)
      (fun i hi => ((non_empty_indices_sound chunk i).mp hi).1) j hj

theorem cloud_positionwise_assignment_witness :
    (rebuildChunk ["a", " ", "b"] ["X"])[0]? = some "X" := by
  have h := ((cloud_positionwise_assignment (fun _ _ => ["X"]) ["a", " ", "b"]).2
    ["a", " ", "b"] ["X"]).2.1 0 (by decide)
  rw [show (non_empty_indices ["a", " ", "b"]).getD 0 0 = 0 from by decide] at h
  simpa using h

theorem fallback_per_line_length (oc : Oracle) :
    ∀ (lines : List String) (k : Nat),
      (_fallback_per_line oc lines k).1.length = lines.length := by
  intro lines
  induction lines with
  | nil => intro k; rfl
  | cons ln rest ih =>
    intro k
    simp [_fallback_per_line, ih]

theorem translate_chunkF_some (oc : Oracle) :
    ∀ (fuel : Nat) (chunk : List String) (k : Nat), chunk ≠ [] → chunk.length ≤ fuel →
      ∃ out k2, translate_chunkF oc fuel chunk k = some (out, k2) ∧ out.length = chunk.length := by
  intro fuel
  induction fuel with
  | zero =>
    intro chunk k hne hle
    exact absurd (List.length_eq_zero.mp (Nat.le_zero.mp hle)) hne
  | succ fuel ih =>
    intro chunk k hne hle
    have hpos : 0 < chunk.length := List.length_pos.mpr hne
    by_cases hone : chunk.length = 1
    · -- a singleton batch either succeeds or goes to the per-line fallback
      cases hb : oc.batch k with
      | exn =>
        refine ⟨(_fallback_per_line oc chunk (k + 1)).1,
          (_fallback_per_line oc chunk (k + 1)).2, ?_, ?_⟩
        · simp [translate_chunkF, hb, hone]
        · rw [fallback_per_line_length]
      | ok o =>
        cases o with
        | none =>
          refine ⟨(_fallback_per_line oc chunk (k + 1)).1,
            (_fallback_per_line oc chunk (k + 1)).2, ?_, ?_⟩
          · simp [translate_chunkF, hb, hone]
          · rw [fallback_per_line_length]
        | some xs =>
          by_cases hxs : xs.length = chunk.length
          · exact ⟨xs.map pyStr, k + 1, by simp [translate_chunkF, hb, hxs],
              by rw [List.length_map, hxs]⟩
          · refine ⟨(_fallback_per_line oc chunk (k + 1)).1,
              (_fallback_per_line oc chunk (k + 1)).2, ?_, ?_⟩
            · simp only [translate_chunkF, hb]
              rw [if_neg hxs, if_pos hone]
            · rw [fallback_per_line_length]
    · -- a batch of two or more: the recovery path bisects
      have h2 : 2 ≤ chunk.length := by omega
      have hmid1 : 1 ≤ chunk.length / 2 := by omega
      have hmidlt : chunk.length / 2 < chunk.length := Nat.div_lt_self hpos (by omega)
      have htake : (chunk.take (chunk.length / 2)).length = chunk.length / 2 := by
        rw [List.length_take]; omega
      have hdrop : (chunk.drop (chunk.length / 2)).length = chunk.length - chunk.length / 2 := by
        rw [List.length_drop]
      have htake_ne : chunk.take (chunk.length / 2) ≠ [] := by
        intro h; rw [← List.length_eq_zero, htake] at h; omega
      have hdrop_ne : chunk.drop (chunk.length / 2) ≠ [] := by
        intro h; rw [← List.length_eq_zero, hdrop] at h; omega
      obtain ⟨lout, k1, hl, hllen⟩ :=
        ih (chunk.take (chunk.length / 2)) (k + 1) htake_ne (by omega)
      obtain ⟨rout, k2, hr, hrlen⟩ :=
        ih (chunk.drop (chunk.length / 2)) k1 hdrop_ne (by rw [hdrop]; omega)
      have hrec : ∀ b : BatchOutcome,
          (if chunk.length = 1 then some (_fallback_per_line oc chunk (k + 1))
            else
              match translate_chunkF oc fuel (chunk.take (chunk.length / 2)) (k + 1) with
              | none => none
              | some lr =>
                match translate_chunkF oc fuel (chunk.drop (chunk.length / 2)) lr.2 with
                | none => none
                | some rr => some (lr.1 ++ rr.1, rr.2)) =
            some (lout ++ rout, k2) := by
        intro _
        rw [if_neg hone, hl]
        simp only [hr]
      have hlen : (lout ++ rout).length = chunk.length := by
        rw [List.length_append, hllen, hrlen, htake, hdrop]; omega
      cases hb : oc.batch k with
      | exn =>
        refine ⟨lout ++ rout, k2, ?_, hlen⟩
        simp only [translate_chunkF, hb]
        exact hrec BatchOutcome.exn
      | ok o =>
        cases o with
        | none =>
          refine ⟨lout ++ rout, k2, ?_, hlen⟩
          simp only [translate_chunkF, hb]
          exact hrec (BatchOutcome.ok none)
        | some xs =>
          by_cases hxs : xs.length = chunk.length
          · exact ⟨xs.map pyStr, k + 1, by simp [translate_chunkF, hb, hxs],
              by rw [List.length_map, hxs]⟩
          · refine ⟨lout ++ rout, k2, ?_, hlen⟩
            simp only [translate_chunkF, hb, if_neg hxs]
            exact hrec (BatchOutcome.ok (some xs))

/-- Claim C1: for every input and every backend behaviour — any value of
any shape or length, or a raised exception, on any subset of calls —
`GeminiTranslator.translate_lines` returns exactly one output line per
input line.  Totality of the embedding (every oracle outcome, including
`exn`, is mapped to a value) is the no-uncaught-exception guarantee. -/
theorem gemini_translate_lines_total (oc : Oracle) (lines : List String) :
    (gemini_translate_lines oc lines).length = lines.length := by
  by_cases h : lines.isEmpty
  · simp [gemini_translate_lines, h, List.isEmpty_iff.mp h]
  · have hne : lines ≠ [] := fun hh => h (by rw [hh]; rfl)
    obtain ⟨out, k2, heq, hlen⟩ :=
      translate_chunkF_some oc lines.length lines 0 hne (Nat.le_refl _)
    simp [gemini_translate_lines, h, heq, hlen]

/-- Claim C10 (amended): `translate_chunk` terminates on every nonempty
batch under every backend behaviour; recursion depth `chunk.length`
always suffices.  (On the empty batch — which `translate_lines` never
passes to it — the recursion diverges; see the counterexample.) -/
theorem translate_chunk_terminates_nonempty (oc : Oracle) (chunk : List String)
    (k : Nat) (hne : chunk ≠ []) :
    ∃ out k2, translate_chunkF oc chunk.length chunk k = some (out, k2) := by
  obtain ⟨out, k2, heq, _⟩ :=
    translate_chunkF_some oc chunk.length chunk k hne (Nat.le_refl _)
  exact ⟨out, k2, heq⟩

theorem translate_chunk_terminates_nonempty_witness :
    ∃ out k2, translate_chunkF allFailOracle (["a"] : List String).length ["a"] 0
      = some (out, k2) :=
  translate_chunk_terminates_nonempty allFailOracle ["a"] 0 (by decide)

/-- Claim C10 counterexample: on the empty input list with a backend that
fails every call, the bisection of `translate_chunk` recurses on two empty
halves and never terminates — no recursion depth completes it. -/
theorem translate_chunk_empty_diverges :
    ¬ chunkRunTerminates allFailOracle [] := by
  have key : ∀ fuel k, translate_chunkF allFailOracle fuel [] k = none := by
    intro fuel
    induction fuel with
    | zero => intro k; rfl
    | succ fuel ih =>
      intro k
      have hb : allFailOracle.batch k = BatchOutcome.exn := rfl
      simp [translate_chunkF, hb, ih]
  rintro ⟨fuel, out, hout⟩
  rw [key fuel 0] at hout
  exact Option.noConfusion hout

/-- Claim C8: a batch response is accepted exactly when it is a list of the
batch's length, taken element-wise with nulls coerced to ""; any invalid
response (wrong type, wrong length, or a raise) splits a multi-line batch
at `len // 2` into independently retried halves and sends a single-line
batch to the plain-text fallback, whose response is stripped and whose
failure returns the original line unchanged. -/
theorem gemini_validation_and_fallback (oc : Oracle) (chunk : List String)
    (k fuel : Nat) :
    ((¬ invalidResponse (oc.batch k) chunk.length) ↔
      ∃ xs, oc.batch k = BatchOutcome.ok (some xs) ∧ xs.length = chunk.length)
    ∧ (∀ xs, oc.batch k = BatchOutcome.ok (some xs) → xs.length = chunk.length →
      translate_chunkF oc (fuel + 1) chunk k = some (xs.map pyStr, k + 1))
    ∧ (invalidResponse (oc.batch k) chunk.length → 2 ≤ chunk.length →
      translate_chunkF oc (fuel + 1) chunk k =
        match translate_chunkF oc fuel (chunk.take (chunk.length / 2)) (k + 1) with
        | none => none
        | some lr =>
          match translate_chunkF oc fuel (chunk.drop (chunk.length / 2)) lr.2 with
          | none => none
          | some rr => some (lr.1 ++ rr.1, rr.2))
    ∧ (invalidResponse (oc.batch k) chunk.length → chunk.length = 1 →
      translate_chunkF oc (fuel + 1) chunk k = some (_fallback_per_line oc chunk (k + 1)))
    ∧ (∀ ln t, oc.single k = SingleOutcome.ok t →
      _fallback_per_line oc [ln] k = ([pyStrip (t.getD "")], k + 1))
    ∧ (oc.single k = SingleOutcome.exn →
      ∀ ln, _fallback_per_line oc [ln] k = ([ln], k + 1)) := by
  refine ⟨?_, ?_, ?_, ?_, ?_, ?_⟩
  · cases hb : oc.batch k with
    | exn => simp [invalidResponse]
    | ok o =>
      cases o with
      | none => simp [invalidResponse]
      | some xs =>
        simp only [invalidResponse, not_ne_iff]
        constructor
        · intro h; exact ⟨xs, rfl, h⟩
        · rintro ⟨ys, hy, hlen⟩
          cases hy
          exact hlen
  · intro xs hb hlen
    simp only [translate_chunkF, hb]
    rw [if_pos hlen]
  · intro hinv h2
    have hone : ¬ chunk.length = 1 := by omega
    cases hb : oc.batch k with
    | exn =>
      simp only [translate_chunkF, hb]
      rw [if_neg hone]
    | ok o =>
      cases o with
      | none =>
        simp only [translate_chunkF, hb]
        rw [if_neg hone]
      | some xs =>
        rw [hb] at hinv
        simp only [invalidResponse] at hinv
        simp only [translate_chunkF, hb]
        rw [if_neg hinv, if_neg hone]
  · intro hinv hone
    cases hb : oc.batch k with
    | exn =>
      simp only [translate_chunkF, hb]
      rw [if_pos hone]
    | ok o =>
      cases o with
      | none =>
        simp only [translate_chunkF, hb]
        rw [if_pos hone]
      | some xs =>
        rw [hb] at hinv
        simp only [invalidResponse] at hinv
        simp only [translate_chunkF, hb]
        rw [if_neg hinv, if_pos hone]
  · intro ln t hs
    simp [_fallback_per_line, hs]
  · intro hs ln
    simp [_fallback_per_line, hs]

theorem gemini_validation_and_fallback_witness :
    translate_chunkF mixedOracle 1 ["x"] 0 = some (["hola"], 2) := by
  have h3 := (gemini_validation_and_fallback mixedOracle ["x"] 0 0).2.2.2.1
    (by simp [mixedOracle, invalidResponse]) (by decide)
  have h4 := (gemini_validation_and_fallback mixedOracle ["x"] 1 0).2.2.2.2.1
    "x" (some " hola ") (by simp [mixedOracle])
  rw [h3, h4]
  decide

/-- Claim C7 counterexample: `GeminiTranslator.translate_lines` performs no
blank filtering — the whitespace-only line " " is sent in the batch payload
and is replaced by whatever the backend returns for it, here "X". -/
theorem blank_passthrough_gemini_cex :
    gemini_translate_lines blankEchoOracle [" "] = ["X"]
    ∧ (" " : String) ≠ "X" ∧ pyStrip " " = "" := by
  refine ⟨by decide, by decide, by decide⟩

/-- Claim C7 (amended): blank pass-through holds for
`CloudTranslateEngine.translate_lines`: whitespace-only entries come back
unchanged at their original indices and never occur in any request payload.
`GeminiTranslator` does not filter blanks (see the counterexample). -/
theorem blank_passthrough_cloud (backend : Nat → List String → List String)
    (lines : List String) :
    (∀ (i : Nat) (s : String), lines[i]? = some s → pyStrip s = "" →
      (cloud_translate_lines backend lines)[i]? = some s)
    ∧ (∀ p ∈ cloud_payloads backend lines, ∀ s ∈ p, pyStrip s ≠ "") := by
  constructor
  · intro i s hi hblank
    by_cases h : lines.isEmpty
    · rw [List.isEmpty_iff.mp h] at hi
      simp at hi
    · simp only [cloud_translate_lines, if_neg h]
      apply cloudRun_blank_preserved
      · rw [show (_chunk_by_chars lines 80000 256).flatten = lines from
          by simpa using chunkLoop_flatten 80000 256 lines [] 0]
        exact hi
      · exact hblank
  · intro p hp s hs
    by_cases h : lines.isEmpty
    · simp [cloud_payloads, h] at hp
    · simp only [cloud_payloads, if_neg h] at hp
      exact cloudRun_payloads_nonblank backend _ 0 p hp s hs

theorem blank_passthrough_cloud_witness :
    (cloud_translate_lines (fun _ _ => ["X"]) ["a", " ", "b"])[1]? = some " " :=
  (blank_passthrough_cloud (fun _ _ => ["X"]) ["a", " ", "b"]).1 1 " "
    (by decide) (by decide)

theorem headIsSpan_eq_match (rest : List Elem) :
    headIsSpan rest =
      (match rest[0]? with
       | some nxt => Elem.tag nxt == qtag "span"
       | none => false) := by
  cases rest with
  | nil => rfl
  | cons a t => simp [headIsSpan]

theorem specChildLoc_cons (c : Elem) (rest : List Elem) (i : Nat) :
    specChildLoc (c :: rest) (i + 1) =
      (specChildLoc rest i).map (fun l => (l.1.map (fun j => j + 1), l.2)) := by
  simp only [specChildLoc, List.getElem?_cons_succ]
  cases h : rest[i]? with
  | none => rfl
  | some d =>
    by_cases h1 : (Elem.tag d == qtag "span") = true
    · simp [h1]
    · rw [Bool.not_eq_true] at h1
      by_cases h2 : (Elem.tag d == qtag "br"
          && nonBlankOpt (Elem.tail d)
          && !(match rest[i + 1]? with
               | some nxt => Elem.tag nxt == qtag "span"
               | none => false)) = true
      · simp [h1, h2]
      · rw [Bool.not_eq_true] at h2
        simp [h1, h2]

theorem shift_shift (L : List (List Nat × Attr)) (n : Nat) :
    (L.map (fun l => (l.1.map (fun j => j + 1), l.2))).map
        (fun l => (l.1.map (fun j => j + n), l.2))
      = L.map (fun l => (l.1.map (fun j => j + (n + 1)), l.2)) := by
  rw [List.map_map]
  have hfun : ((fun l : List Nat × Attr => (l.1.map (fun j => j + n), l.2)) ∘
      (fun l : List Nat × Attr => (l.1.map (fun j => j + 1), l.2)))
      = (fun l : List Nat × Attr => (l.1.map (fun j => j + (n + 1)), l.2)) := by
    funext l
    simp only [Function.comp, List.map_map]
    refine congrArg (fun z => (z, l.2)) ?_
    refine List.map_congr_left ?_
    intro j _
    simp only [Function.comp]
    omega
  rw [hfun]

theorem collectLoop_eq_spec (cs : List Elem) :
    ∀ n : Nat, collectLoop cs n =
      ((List.range cs.length).flatMap (specChildLoc cs)).map
        (fun l => (l.1.map (fun j => j + n), l.2)) := by
  induction cs with
  | nil => intro n; rfl
  | cons c rest ih =>
    intro n
    rw [List.length_cons, List.range_succ_eq_map, List.flatMap_cons, List.flatMap_map]
    have hcomp : (fun a : Nat => specChildLoc (c :: rest) a.succ)
        = (fun i => (specChildLoc rest i).map (fun l => (l.1.map (fun j => j + 1), l.2))) := by
      funext i
      exact specChildLoc_cons c rest i
    rw [hcomp, List.map_append]
    have hpiece2 :
        ((List.range rest.length).flatMap
            (fun i => (specChildLoc rest i).map (fun l => (l.1.map (fun j => j + 1), l.2)))).map
          (fun l => (l.1.map (fun j => j + n), l.2))
        = collectLoop rest (n + 1) := by
      rw [← List.map_flatMap, shift_shift, ← ih (n + 1)]
    have hpiece1 :
        (specChildLoc (c :: rest) 0).map (fun l => (l.1.map (fun j => j + n), l.2))
        = (if Elem.tag c == qtag "span" then [([n], Attr.text)]
           else if Elem.tag c == qtag "br"
               && nonBlankOpt (Elem.tail c) && !(headIsSpan rest) then
             [([n], Attr.tail)]
           else []) := by
      simp only [specChildLoc, List.getElem?_cons_zero, List.getElem?_cons_succ,
        ← headIsSpan_eq_match]
      by_cases h1 : (Elem.tag c == qtag "span") = true
      · simp [h1]
      · rw [Bool.not_eq_true] at h1
        by_cases h2 : (Elem.tag c == qtag "br"
            && nonBlankOpt (Elem.tail c) && !(headIsSpan rest)) = true
        · simp [h1, h2]
        · rw [Bool.not_eq_true] at h2
          simp [h1, h2]
    rw [hpiece2, hpiece1]
    rfl

/-- Claim C2: `collect_line_nodes` returns exactly the locations described
by the specification, in document order: spans' own texts in child order
(suppressing the container's own leading text when spans exist, keeping a
non-blank own text when they do not), plus the tails of line-breaks that
are non-blank and not immediately followed by a span, interleaved at their
child positions. -/
theorem collect_line_nodes_matches_spec (p : Elem) :
    collect_line_nodes_spec p = collect_line_nodes p := by
  unfold collect_line_nodes_spec collect_line_nodes specOwnTextLoc
  have hloop : (List.range (Elem.children p).length).flatMap (specChildLoc (Elem.children p))
      = collectLoop (Elem.children p) 0 := by
    rw [collectLoop_eq_spec (Elem.children p) 0]
    have hid : (fun l : List Nat × Attr => (l.1.map (fun j => j + 0), l.2))
        = (id : List Nat × Attr → List Nat × Attr) := by
      funext l
      simp
    rw [hid, List.map_id]
  rw [hloop]
  by_cases h1 : ((Elem.children p).any (fun c => Elem.tag c == qtag "span")) = true
  · simp [h1]
  · rw [Bool.not_eq_true] at h1
    by_cases h2 : nonBlankOpt (Elem.text p) = true
    · simp [h1, h2]
    · rw [Bool.not_eq_true] at h2
      simp [h1, h2]

theorem collectLoop_eq_nil (cs : List Elem)
    (hns : ∀ c ∈ cs, Elem.tag c ≠ qtag "span")
    (hbr : ∀ c ∈ cs, Elem.tag c = qtag "br" → nonBlankOpt (Elem.tail c) = false) :
    ∀ n : Nat, collectLoop cs n = [] := by
  induction cs with
  | nil => intro n; rfl
  | cons c rest ih =>
    intro n
    have h1 : (Elem.tag c == qtag "span") = false :=
      beq_eq_false_iff_ne.mpr (hns c (List.mem_cons_self c rest))
    have h2 : (Elem.tag c == qtag "br"
        && nonBlankOpt (Elem.tail c) && !(headIsSpan rest)) = false := by
      by_cases hb : Elem.tag c = qtag "br"
      · rw [hbr c (List.mem_cons_self c rest) hb]
        simp
      · rw [beq_eq_false_iff_ne.mpr hb]
        simp
    have ih2 := ih (fun c hc => hns c (List.mem_cons_of_mem _ hc))
      (fun c hc => hbr c (List.mem_cons_of_mem _ hc))
    simp [collectLoop, h1, h2, ih2]

/-- Claim C5 (amended): a container with no direct span children, blank own
text, and only blank break tails yields no locations at all, so none of its
content is sent to the translation function or counted.  (A container whose
spans merely carry blank text is *not* skipped: each span is still one
location — see the counterexample.) -/
theorem blank_container_skipped (p : Elem)
    (hnospan : ∀ c ∈ Elem.children p, Elem.tag c ≠ qtag "span")
    (htext : nonBlankOpt (Elem.text p) = false)
    (htails : ∀ c ∈ Elem.children p, Elem.tag c = qtag "br" →
      nonBlankOpt (Elem.tail c) = false) :
    collect_line_nodes p = [] := by
  unfold collect_line_nodes
  rw [collectLoop_eq_nil _ hnospan htails 0, htext]
  simp

theorem blank_container_skipped_witness :
    collect_line_nodes blankPara = [] :=
  blank_container_skipped blankPara (by decide) (by decide) (by decide)

/-- Claim C5 counterexample: in `c5Doc` the only paragraph's extracted
texts are all blank (the single span's text is ""), yet that line is still
passed to the translation function and counted: the text sequence is [""]
(non-empty) and the reported translated-line count is 1, not 0. -/
theorem blank_container_counted_cex :
    docTexts c5Doc = [""]
    ∧ (∀ s ∈ docTexts c5Doc, pyStrip s = "")
    ∧ docTexts c5Doc ≠ []
    ∧ (translate_ttml c5Doc (fun ts _ => ts) "es").2 = 1 := by
  refine ⟨by decide, by decide, by decide, by decide⟩

theorem setChild_length (g : Elem → Elem) :
    ∀ (cs : List Elem) (i : Nat), (setChild i g cs).length = cs.length := by
  intro cs
  induction cs with
  | nil => intro i; cases i <;> rfl
  | cons c cs ih =>
    intro i
    cases i with
    | zero => rfl
    | succ i => simpa [setChild] using ih i

theorem setChild_getElem? (g : Elem → Elem) :
    ∀ (cs : List Elem) (i j : Nat),
      (setChild i g cs)[j]? = if i = j then (cs[j]?).map g else cs[j]? := by
  intro cs
  induction cs with
  | nil =>
    intro i j
    cases i <;> simp [setChild]
  | cons c cs ih =>
    intro i j
    cases i with
    | zero =>
      cases j with
      | zero => simp [setChild]
      | succ j => simp [setChild]
    | succ i =>
      cases j with
      | zero => simp [setChild]
      | succ j =>
        simp only [setChild, List.getElem?_cons_succ, ih i j]
        by_cases h : i = j
        · simp [h]
        · simp [h, fun hh : i + 1 = j + 1 => h (Nat.succ_injective hh)]

theorem getAt_setAt_map {α : Type} (g : Elem → α)
    (hsetF : ∀ (e : Elem) (f : Attr) (s : String), g (setF e f s) = g e)
    (hchild : ∀ (t : String) (a : List (String × String)) (tx tl : Option String)
      (h : Elem → Elem) (i : Nat) (cs : List Elem),
      g (Elem.mk t a tx tl (setChild i h cs)) = g (Elem.mk t a tx tl cs))
    (f : Attr) (s : String) :
    ∀ (p π : List Nat) (e : Elem),
      (getAt π (setAt p f s e)).map g = (getAt π e).map g := by
  intro p
  induction p with
  | nil =>
    intro π e
    cases π with
    | nil => simp [getAt, setAt, hsetF]
    | cons j pr =>
      cases e with
      | mk t a tx tl cs => cases f <;> rfl
  | cons i p ih =>
    intro π e
    cases e with
    | mk t a tx tl cs =>
      cases π with
      | nil =>
        simp only [setAt, getAt, Option.map_some']
        rw [hchild]
      | cons j pr =>
        show (match (setChild i (fun c => setAt p f s c) cs)[j]? with
          | some c => getAt pr c
          | none => none).map g = (match cs[j]? with
          | some c => getAt pr c
          | none => none).map g
        rw [setChild_getElem?]
        by_cases hij : i = j
        · rw [if_pos hij]
          cases hc : cs[j]? with
          | none => simp
          | some c => simpa using ih pr c
        · rw [if_neg hij]

theorem getAt_setAt_field_ne (f : Attr) (s : String) :
    ∀ (p π : List Nat) (fq : Attr) (e : Elem), ¬(π = p ∧ fq = f) →
      (getAt π (setAt p f s e)).map (fun n => Elem.fieldOf n fq)
        = (getAt π e).map (fun n => Elem.fieldOf n fq) := by
  intro p
  induction p with
  | nil =>
    intro π fq e hne
    cases π with
    | nil =>
      have hf : fq ≠ f := fun h => hne ⟨rfl, h⟩
      cases e with
      | mk t a tx tl cs =>
        cases f <;> cases fq <;>
          first
          | exact absurd rfl hf
          | rfl
    | cons j pr =>
      cases e with
      | mk t a tx tl cs => cases f <;> rfl
  | cons i p ih =>
    intro π fq e hne
    cases e with
    | mk t a tx tl cs =>
      cases π with
      | nil => cases fq <;> rfl
      | cons j pr =>
        show (match (setChild i (fun c => setAt p f s c) cs)[j]? with
          | some c => getAt pr c
          | none => none).map (fun n => Elem.fieldOf n fq) = (match cs[j]? with
          | some c => getAt pr c
          | none => none).map (fun n => Elem.fieldOf n fq)
        rw [setChild_getElem?]
        by_cases hij : i = j
        · rw [if_pos hij]
          cases hc : cs[j]? with
          | none => simp
          | some c =>
            have hne2 : ¬(pr = p ∧ fq = f) := by
              rintro ⟨h1, h2⟩
              exact hne ⟨by rw [h1, hij], h2⟩
            simpa using ih pr fq c hne2
        · rw [if_neg hij]

theorem getAt_setAt_field_eq (f : Attr) (s : String) :
    ∀ (p : List Nat) (e : Elem),
      (getAt p (setAt p f s e)).map (fun n => Elem.fieldOf n f)
        = (getAt p e).map (fun _ => some s) := by
  intro p
  induction p with
  | nil =>
    intro e
    cases e with
    | mk t a tx tl cs => cases f <;> rfl
  | cons i p ih =>
    intro e
    cases e with
    | mk t a tx tl cs =>
      show (match (setChild i (fun c => setAt p f s c) cs)[i]? with
        | some c => getAt p c
        | none => none).map (fun n => Elem.fieldOf n f) = (match cs[i]? with
        | some c => getAt p c
        | none => none).map (fun _ => some s)
      rw [setChild_getElem?, if_pos rfl]
      cases hc : cs[i]? with
      | none => simp
      | some c => simpa using ih c

theorem writeAll_cons (root : Elem) (w : (List Nat × Attr) × String)
    (ws : List ((List Nat × Attr) × String)) :
    writeAll root (w :: ws) = writeAll (setAt w.1.1 w.1.2 w.2 root) ws := rfl

theorem tag_setF (e : Elem) (f : Attr) (s : String) :
    Elem.tag (setF e f s) = Elem.tag e := by
  cases e; cases f <;> rfl

theorem attrs_setF (e : Elem) (f : Attr) (s : String) :
    Elem.attrs (setF e f s) = Elem.attrs e := by
  cases e; cases f <;> rfl

theorem writeAll_tag (ws : List ((List Nat × Attr) × String)) :
    ∀ (root : Elem) (π : List Nat),
      (getAt π (writeAll root ws)).map Elem.tag = (getAt π root).map Elem.tag := by
  induction ws with
  | nil => intro root π; rfl
  | cons w ws ih =>
    intro root π
    rw [writeAll_cons, ih,
      getAt_setAt_map Elem.tag tag_setF (fun _ _ _ _ _ _ _ => rfl) w.1.2 w.2 w.1.1 π root]

theorem writeAll_attrs (ws : List ((List Nat × Attr) × String)) :
    ∀ (root : Elem) (π : List Nat),
      (getAt π (writeAll root ws)).map Elem.attrs = (getAt π root).map Elem.attrs := by
  induction ws with
  | nil => intro root π; rfl
  | cons w ws ih =>
    intro root π
    rw [writeAll_cons, ih,
      getAt_setAt_map Elem.attrs attrs_setF (fun _ _ _ _ _ _ _ => rfl) w.1.2 w.2 w.1.1 π root]

theorem childCount_setF (e : Elem) (f : Attr) (s : String) :
    (Elem.children (setF e f s)).length = (Elem.children e).length := by
  cases e; cases f <;> rfl

theorem writeAll_childCount (ws : List ((List Nat × Attr) × String)) :
    ∀ (root : Elem) (π : List Nat),
      (getAt π (writeAll root ws)).map (fun n => (Elem.children n).length)
        = (getAt π root).map (fun n => (Elem.children n).length) := by
  induction ws with
  | nil => intro root π; rfl
  | cons w ws ih =>
    intro root π
    rw [writeAll_cons, ih,
      getAt_setAt_map (fun n => (Elem.children n).length) childCount_setF
        (fun t a tx tl h i cs => by simp [Elem.children, setChild_length])
        w.1.2 w.2 w.1.1 π root]

theorem writeAll_field_not_mem :
    ∀ (ws : List ((List Nat × Attr) × String)) (root : Elem) (π : List Nat) (fq : Attr),
      (π, fq) ∉ ws.map Prod.fst →
      (getAt π (writeAll root ws)).map (fun n => Elem.fieldOf n fq)
        = (getAt π root).map (fun n => Elem.fieldOf n fq) := by
  intro ws
  induction ws with
  | nil => intro root π fq _; rfl
  | cons w ws ih =>
    intro root π fq hni
    simp only [List.map_cons, List.mem_cons] at hni
    push_neg at hni
    rw [writeAll_cons, ih _ _ _ hni.2]
    apply getAt_setAt_field_ne
    rintro ⟨h1, h2⟩
    exact hni.1 (by rw [h1, h2])

theorem writeAll_field_written :
    ∀ (ws : List ((List Nat × Attr) × String)) (root : Elem),
      (ws.map Prod.fst).Nodup →
      ∀ i, i < ws.length → (getAt (ws.getD i dfltW).1.1 root).isSome = true →
        (getAt ((ws.getD i dfltW).1.1) (writeAll root ws)).map
            (fun n => Elem.fieldOf n ((ws.getD i dfltW).1.2))
          = some (some ((ws.getD i dfltW).2)) := by
  intro ws
  induction ws with
  | nil =>
    intro root _ i hi
    simp at hi
  | cons w ws ih =>
    intro root hnd i hi hsome
    have hnd2 : w.1 ∉ ws.map Prod.fst ∧ (ws.map Prod.fst).Nodup := by
      rw [List.map_cons, List.nodup_cons] at hnd
      exact hnd
    cases i with
    | zero =>
      show (getAt w.1.1 (writeAll root (w :: ws))).map (fun n => Elem.fieldOf n w.1.2)
        = some (some w.2)
      rw [writeAll_cons]
      have hkey : (w.1.1, w.1.2) ∉ ws.map Prod.fst := fun hmem => hnd2.1 hmem
      rw [writeAll_field_not_mem ws _ _ _ hkey,
        getAt_setAt_field_eq w.1.2 w.2 w.1.1 root]
      obtain ⟨n, hn⟩ := Option.isSome_iff_exists.mp (by simpa using hsome)
      rw [hn]
      rfl
    | succ i =>
      show (getAt ((ws.getD i dfltW).1.1) (writeAll root (w :: ws))).map
          (fun n => Elem.fieldOf n ((ws.getD i dfltW).1.2))
        = some (some ((ws.getD i dfltW).2))
      rw [writeAll_cons]
      apply ih _ hnd2.2 i (by simpa using hi)
      have htag := getAt_setAt_map Elem.tag tag_setF (fun _ _ _ _ _ _ _ => rfl)
        w.1.2 w.2 w.1.1 ((ws.getD i dfltW).1.1) root
      have hs : ((getAt ((ws.getD i dfltW).1.1) (setAt w.1.1 w.1.2 w.2 root)).map
          Elem.tag).isSome = ((getAt ((ws.getD i dfltW).1.1) root).map Elem.tag).isSome := by
        rw [htag]
      simpa [Option.isSome_map] using hs.trans (by simpa [Option.isSome_map] using hsome)

theorem elem_ind (P : Elem → Prop)
    (h : ∀ (t : String) (a : List (String × String)) (tx tl : Option String)
      (cs : List Elem), (∀ c ∈ cs, P c) → P (Elem.mk t a tx tl cs)) :
    ∀ e, P e := by
  have key : ∀ (n : Nat) (e : Elem), sizeOf e ≤ n → P e := by
    intro n
    induction n with
    | zero =>
      intro e he
      cases e with
      | mk t a tx tl cs => simp at he
    | succ n ih =>
      intro e he
      cases e with
      | mk t a tx tl cs =>
        apply h
        intro c hc
        apply ih
        have h1 : sizeOf c < sizeOf cs := List.sizeOf_lt_of_mem hc
        have h2 : sizeOf (Elem.mk t a tx tl cs)
            = 1 + sizeOf t + sizeOf a + sizeOf tx + sizeOf tl + sizeOf cs := by
          simp
        omega
  intro e
  exact key (sizeOf e) e (Nat.le_refl _)

theorem mem_of_getElem?_mem {α : Type} :
    ∀ (l : List α) (j : Nat) (a : α), l[j]? = some a → a ∈ l := by
  intro l
  induction l with
  | nil => intro j a h; simp at h
  | cons x l ih =>
    intro j a h
    cases j with
    | zero =>
      simp only [List.getElem?_cons_zero, Option.some_inj] at h
      rw [← h]
      exact List.mem_cons_self x l
    | succ j => exact List.mem_cons_of_mem x (ih j a (by simpa using h))

theorem getAt_append : ∀ (p q : List Nat) (e : Elem),
    getAt (p ++ q) e = (getAt p e).bind (getAt q) := by
  intro p
  induction p with
  | nil => intro q e; rfl
  | cons i p ih =>
    intro q e
    cases e with
    | mk t a tx tl cs =>
      show (match cs[i]? with | some c => getAt (p ++ q) c | none => none)
        = (match cs[i]? with | some c => getAt p c | none => none).bind (getAt q)
      cases hc : cs[i]? with
      | none => rfl
      | some c => exact ih q c

theorem pPathsL_mem : ∀ (cs : List Elem) (i : Nat) (π : List Nat),
    π ∈ pPathsL cs i ↔
      ∃ j c pa, π = (i + j) :: pa ∧ cs[j]? = some c ∧
        ((pa = [] ∧ Elem.tag c = qtag "p") ∨ pa ∈ pPathsE c) := by
  intro cs
  induction cs with
  | nil =>
    intro i π
    simp [pPathsL]
  | cons c cs ih =>
    intro i π
    constructor
    · intro hmem
      simp only [pPathsL, List.mem_append] at hmem
      rcases hmem with (hmem | hmem) | hmem
      · by_cases htag : Elem.tag c = qtag "p"
        · rw [if_pos htag] at hmem
          simp only [List.mem_singleton] at hmem
          exact ⟨0, c, [], by simpa using hmem, by simp, Or.inl ⟨rfl, htag⟩⟩
        · rw [if_neg htag] at hmem
          simp at hmem
      · rcases List.mem_map.mp hmem with ⟨pa, hpa, rfl⟩
        exact ⟨0, c, pa, by simp, by simp, Or.inr hpa⟩
      · rcases (ih (i + 1) π).mp hmem with ⟨j, d, pa, rfl, hd, hcase⟩
        refine ⟨j + 1, d, pa, ?_, by simpa using hd, hcase⟩
        congr 1
        omega
    · rintro ⟨j, d, pa, rfl, hd, hcase⟩
      simp only [pPathsL, List.mem_append]
      cases j with
      | zero =>
        simp only [List.getElem?_cons_zero, Option.some_inj] at hd
        subst hd
        rcases hcase with ⟨rfl, htag⟩ | hpa
        · left; left
          rw [if_pos htag]
          simp
        · left; right
          exact List.mem_map.mpr ⟨pa, hpa, by simp⟩
      | succ j =>
        right
        apply (ih (i + 1) _).mpr
        refine ⟨j, d, pa, ?_, by simpa using hd, hcase⟩
        congr 1
        omega

theorem pPathsE_unfold (t : String) (a : List (String × String)) (tx tl : Option String)
    (cs : List Elem) : pPathsE (Elem.mk t a tx tl cs) = pPathsL cs 0 := rfl

theorem pPathsE_ne_nil (e : Elem) : ∀ π ∈ pPathsE e, π ≠ [] := by
  cases e with
  | mk t a tx tl cs =>
    intro π hπ
    rw [pPathsE_unfold] at hπ
    obtain ⟨j, c, pa, rfl, _, _⟩ := (pPathsL_mem cs 0 π).mp hπ
    simp

theorem pPathsE_sound : ∀ (e : Elem) (π : List Nat), π ∈ pPathsE e →
    ∃ n, getAt π e = some n ∧ Elem.tag n = qtag "p" := by
  refine elem_ind (fun e => ∀ π, π ∈ pPathsE e →
    ∃ n, getAt π e = some n ∧ Elem.tag n = qtag "p") ?_
  intro t a tx tl cs ih π hπ
  rw [pPathsE_unfold] at hπ
  obtain ⟨j, c, pa, rfl, hc, hcase⟩ := (pPathsL_mem cs 0 π).mp hπ
  have hj : (0 + j) = j := by omega
  rw [hj]
  have hget : getAt (j :: pa) (Elem.mk t a tx tl cs) = getAt pa c := by
    show (match cs[j]? with | some d => getAt pa d | none => none) = getAt pa c
    rw [hc]
  rcases hcase with ⟨rfl, htag⟩ | hpa
  · exact ⟨c, by rw [hget]; rfl, htag⟩
  · obtain ⟨n, hn, htag⟩ := ih c (mem_of_getElem?_mem cs j c hc) pa hpa
    exact ⟨n, by rw [hget, hn], htag⟩

theorem pPathsL_nodup : ∀ (cs : List Elem) (i : Nat),
    (∀ c ∈ cs, (pPathsE c).Nodup) → (pPathsL cs i).Nodup := by
  intro cs
  induction cs with
  | nil => intro i _; simp [pPathsL]
  | cons c cs ih =>
    intro i hall
    show ((if Elem.tag c = qtag "p" then [[i]] else [])
      ++ (pPathsE c).map (fun pa => i :: pa) ++ pPathsL cs (i + 1)).Nodup
    rw [List.append_assoc, List.nodup_append]
    refine ⟨?_, ?_, ?_⟩
    · by_cases htag : Elem.tag c = qtag "p" <;> simp [htag]
    · rw [List.nodup_append]
      refine ⟨?_, ih (i + 1) (fun d hd => hall d (List.mem_cons_of_mem _ hd)), ?_⟩
      · exact (hall c (List.mem_cons_self c cs)).map
          (fun x y hxy => by injection hxy)
      · intro π hπ1 hπ2
        rcases List.mem_map.mp hπ1 with ⟨pa, _, rfl⟩
        obtain ⟨j, d, pb, heq, _, _⟩ := (pPathsL_mem cs (i + 1) _).mp hπ2
        have : i = i + 1 + j := by
          injection heq
        omega
    · intro π hπ1 hπ2
      by_cases htag : Elem.tag c = qtag "p"
      · rw [if_pos htag] at hπ1
        simp only [List.mem_singleton] at hπ1
        subst hπ1
        rw [List.mem_append] at hπ2
        rcases hπ2 with hπ2 | hπ2
        · rcases List.mem_map.mp hπ2 with ⟨pa, hpa, heq⟩
          have hnil : pa = [] := by injection heq
          exact pPathsE_ne_nil c pa hpa hnil
        · obtain ⟨j, d, pb, heq, _, _⟩ := (pPathsL_mem cs (i + 1) _).mp hπ2
          have : i = i + 1 + j := by injection heq
          omega
      · rw [if_neg htag] at hπ1
        simp at hπ1

theorem pPathsE_nodup : ∀ e : Elem, (pPathsE e).Nodup := by
  refine elem_ind (fun e => (pPathsE e).Nodup) ?_
  intro t a tx tl cs ih
  exact pPathsL_nodup cs 0 ih

theorem collectLoop_sound : ∀ (cs : List Elem) (i : Nat) (l : List Nat × Attr),
    l ∈ collectLoop cs i → ∃ j c, cs[j]? = some c ∧ l.1 = [i + j] ∧
      ((Elem.tag c = qtag "span" ∧ l.2 = Attr.text)
        ∨ (Elem.tag c = qtag "br" ∧ l.2 = Attr.tail)) := by
  intro cs
  induction cs with
  | nil => intro i l h; simp [collectLoop] at h
  | cons ch rest ih =>
    intro i l h
    simp only [collectLoop, List.mem_append] at h
    rcases h with h | h
    · by_cases h1 : (Elem.tag ch == qtag "span") = true
      · rw [if_pos h1] at h
        simp only [List.mem_singleton] at h
        subst h
        exact ⟨0, ch, by simp, by simp, Or.inl ⟨by simpa using h1, rfl⟩⟩
      · rw [Bool.not_eq_true] at h1
        rw [if_neg (by simp [h1])] at h
        by_cases h2 : (Elem.tag ch == qtag "br"
            && nonBlankOpt (Elem.tail ch) && !(headIsSpan rest)) = true
        · rw [if_pos h2] at h
          simp only [List.mem_singleton] at h
          subst h
          have hbr : Elem.tag ch = qtag "br" := by
            have := (Bool.and_eq_true _ _).mp ((Bool.and_eq_true _ _).mp h2).1
            simpa using this.1
          exact ⟨0, ch, by simp, by simp, Or.inr ⟨hbr, rfl⟩⟩
        · rw [Bool.not_eq_true] at h2
          rw [if_neg (by simp [h2])] at h
          simp at h
    · obtain ⟨j, c, hc, hpath, hcase⟩ := ih (i + 1) l h
      refine ⟨j + 1, c, by simpa using hc, ?_, hcase⟩
      rw [hpath]
      congr 1
      omega

theorem collect_line_nodes_sound (p : Elem) (l : List Nat × Attr) :
    l ∈ collect_line_nodes p →
      l = (([] : List Nat), Attr.text)
      ∨ ∃ j c, (Elem.children p)[j]? = some c ∧ l.1 = [j] ∧
          ((Elem.tag c = qtag "span" ∧ l.2 = Attr.text)
            ∨ (Elem.tag c = qtag "br" ∧ l.2 = Attr.tail)) := by
  intro h
  unfold collect_line_nodes at h
  rw [List.mem_append] at h
  rcases h with h | h
  · left
    by_cases hc : (!((Elem.children p).any (fun ch => Elem.tag ch == qtag "span"))
        && nonBlankOpt (Elem.text p)) = true
    · rw [if_pos hc] at h
      simpa using h
    · rw [Bool.not_eq_true] at hc
      rw [if_neg (by simp [hc])] at h
      simp at h
  · right
    obtain ⟨j, c, hc, hpath, hcase⟩ := collectLoop_sound (Elem.children p) 0 l h
    exact ⟨j, c, hc, by simpa using hpath, hcase⟩

theorem collectLoop_nodup : ∀ (cs : List Elem) (i : Nat), (collectLoop cs i).Nodup := by
  intro cs
  induction cs with
  | nil => intro i; simp [collectLoop]
  | cons ch rest ih =>
    intro i
    simp only [collectLoop]
    rw [List.nodup_append]
    refine ⟨?_, ih (i + 1), ?_⟩
    · by_cases h1 : (Elem.tag ch == qtag "span") = true
      · simp [h1]
      · rw [Bool.not_eq_true] at h1
        by_cases h2 : (Elem.tag ch == qtag "br"
            && nonBlankOpt (Elem.tail ch) && !(headIsSpan rest)) = true
        · simp [h1, h2]
        · rw [Bool.not_eq_true] at h2
          simp [h1, h2]
    · intro l hl1 hl2
      obtain ⟨j, c, _, hpath, _⟩ := collectLoop_sound rest (i + 1) l hl2
      have hpath1 : l.1 = [i] := by
        by_cases h1 : (Elem.tag ch == qtag "span") = true
        · rw [if_pos h1] at hl1
          simp only [List.mem_singleton] at hl1
          rw [hl1]
        · rw [Bool.not_eq_true] at h1
          rw [if_neg (by simp [h1])] at hl1
          by_cases h2 : (Elem.tag ch == qtag "br"
              && nonBlankOpt (Elem.tail ch) && !(headIsSpan rest)) = true
          · rw [if_pos h2] at hl1
            simp only [List.mem_singleton] at hl1
            rw [hl1]
          · rw [Bool.not_eq_true] at h2
            rw [if_neg (by simp [h2])] at hl1
            simp at hl1
      rw [hpath1] at hpath
      have : i = i + 1 + j := by injection hpath
      omega

theorem collect_line_nodes_nodup (p : Elem) : (collect_line_nodes p).Nodup := by
  unfold collect_line_nodes
  rw [List.nodup_append]
  refine ⟨?_, collectLoop_nodup (Elem.children p) 0, ?_⟩
  · by_cases hc : (!((Elem.children p).any (fun ch => Elem.tag ch == qtag "span"))
        && nonBlankOpt (Elem.text p)) = true
    · simp [hc]
    · rw [Bool.not_eq_true] at hc
      simp [hc]
  · intro l hl1 hl2
    obtain ⟨j, c, _, hpath, _⟩ := collectLoop_sound (Elem.children p) 0 l hl2
    have hl : l = (([] : List Nat), Attr.text) := by
      by_cases hc : (!((Elem.children p).any (fun ch => Elem.tag ch == qtag "span"))
          && nonBlankOpt (Elem.text p)) = true
      · rw [if_pos hc] at hl1
        simpa using hl1
      · rw [Bool.not_eq_true] at hc
        rw [if_neg (by simp [hc])] at hl1
        simp at hl1
    rw [hl] at hpath
    simp at hpath

theorem paraContribution_sound (root : Elem) (pp : List Nat) (l : List Nat × Attr)
    (h : l ∈ paraContribution root pp) :
    ∃ p q f, getAt pp root = some p ∧ (q, f) ∈ collect_line_nodes p
      ∧ l = (pp ++ q, f) := by
  unfold paraContribution at h
  cases hget : getAt pp root with
  | none => rw [hget] at h; simp at h
  | some p =>
    rw [hget] at h
    rcases List.mem_map.mp h with ⟨⟨q, f⟩, hqf, rfl⟩
    exact ⟨p, q, f, rfl, hqf, rfl⟩

theorem qtag_p_ne_span : qtag "p" ≠ qtag "span" := by decide

theorem qtag_p_ne_br : qtag "p" ≠ qtag "br" := by decide

theorem paraContribution_disjoint_of_ancestor (root : Elem) (pp1 pp2 : List Nat)
    (h2 : pp2 ∈ pPathsE root) (hpre : pp1 <+: pp2) (hne : pp1 ≠ pp2)
    (l : List Nat × Attr) (hl1 : l ∈ paraContribution root pp1)
    (hl2 : l ∈ paraContribution root pp2) : False := by
  obtain ⟨p1, q1, f1, hg1, hc1, rfl⟩ := paraContribution_sound root pp1 l hl1
  obtain ⟨p2, q2, f2, hg2, hc2, heq2⟩ := paraContribution_sound root pp2 _ hl2
  obtain ⟨r, hr⟩ := hpre
  have heqpath : pp1 ++ q1 = pp2 ++ q2 := congrArg Prod.fst heq2
  rw [← hr, List.append_assoc] at heqpath
  have hq : q1 = r ++ q2 := List.append_cancel_left heqpath
  have hrne : r ≠ [] := by
    intro hnil
    rw [hnil, List.append_nil] at hr
    exact hne hr
  rcases collect_line_nodes_sound p1 _ hc1 with hcnil | ⟨j, c, hcj, hpath, htags⟩
  · have : q1 = [] := congrArg Prod.fst hcnil
    rw [this] at hq
    rcases List.append_eq_nil.mp hq.symm with ⟨h3, _⟩
    exact hrne h3
  · have hq1 : q1 = [j] := hpath
    rw [hq1] at hq
    have hrj : r = [j] := by
      cases r with
      | nil => exact absurd rfl hrne
      | cons a r2 =>
        have h3 : a = j ∧ r2 ++ q2 = [] := by
          have := hq.symm
          simp only [List.cons_append, List.cons_eq_cons] at this
          exact ⟨this.1, this.2⟩
        rcases List.append_eq_nil.mp h3.2 with ⟨h4, _⟩
        rw [h3.1, h4]
    have hgetpp2 : getAt pp2 root = some c := by
      rw [← hr, hrj, getAt_append, hg1]
      show getAt [j] p1 = some c
      show (match (Elem.children p1)[j]? with
        | some d => getAt ([] : List Nat) d
        | none => none) = some c
      rw [hcj]
      rfl
    obtain ⟨n, hn, htagn⟩ := pPathsE_sound root pp2 h2
    rw [hgetpp2] at hn
    have hcn : c = n := by injection hn
    rcases htags with ⟨hsp, _⟩ | ⟨hbr, _⟩
    · exact qtag_p_ne_span (by rw [← htagn, ← hcn, hsp])
    · exact qtag_p_ne_br (by rw [← htagn, ← hcn, hbr])

theorem line_nodes_nodup (root : Elem) : (line_nodes root).Nodup := by
  unfold line_nodes
  rw [List.nodup_flatMap]
  constructor
  · intro pp _
    unfold paraContribution
    cases hget : getAt pp root with
    | none => simp
    | some p =>
      refine (collect_line_nodes_nodup p).map ?_
      intro a b hab
      simp only [Prod.mk.injEq] at hab
      exact Prod.ext (List.append_cancel_left hab.1) hab.2
  · apply List.Pairwise.imp_of_mem ?_ (pPathsE_nodup root)
    intro pp1 pp2 h1 h2 hne l hl1 hl2
    have hpre1 : pp1 <+: pp1 ++ l.1.drop pp1.length := ⟨l.1.drop pp1.length, rfl⟩
    obtain ⟨p1, q1, f1, _, _, hl1e⟩ := paraContribution_sound root pp1 l hl1
    obtain ⟨p2, q2, f2, _, _, hl2e⟩ := paraContribution_sound root pp2 l hl2
    have hpq : pp1 ++ q1 = pp2 ++ q2 := by
      rw [hl1e] at hl2e
      exact congrArg Prod.fst hl2e
    have hp1 : pp1 <+: pp1 ++ q1 := ⟨q1, rfl⟩
    have hp2 : pp2 <+: pp1 ++ q1 := ⟨q2, hpq.symm⟩
    rcases List.prefix_or_prefix_of_prefix hp1 hp2 with hpre | hpre
    · exact paraContribution_disjoint_of_ancestor root pp1 pp2 h2 hpre hne l hl1 hl2
    · exact paraContribution_disjoint_of_ancestor root pp2 pp1 h1 hpre
        (fun h => hne h.symm) l hl2 hl1

theorem line_nodes_isSome (root : Elem) :
    ∀ l ∈ line_nodes root, (getAt l.1 root).isSome = true := by
  intro l hl
  unfold line_nodes at hl
  obtain ⟨pp, hpp, hcontrib⟩ := List.mem_flatMap.mp hl
  obtain ⟨p, q, f, hg, hc, rfl⟩ := paraContribution_sound root pp l hcontrib
  rcases collect_line_nodes_sound p _ hc with hcnil | ⟨j, c, hcj, hpath, _⟩
  · have hq : q = [] := congrArg Prod.fst hcnil
    subst hq
    simp [getAt_append, hg]
  · have hq : q = [j] := hpath
    subst hq
    rw [show ((pp ++ [j], f) : List Nat × Attr).1 = pp ++ [j] from rfl,
      getAt_append, hg]
    show (getAt [j] p).isSome = true
    show (match (Elem.children p)[j]? with
      | some d => getAt ([] : List Nat) d
      | none => none).isSome = true
    rw [hcj]
    rfl

theorem zip_getD_of_lt {α β : Type} (l₁ : List α) (l₂ : List β) (i : Nat)
    (h1 : i < l₁.length) (h2 : i < l₂.length) (d1 : α) (d2 : β) :
    (l₁.zip l₂).getD i (d1, d2) = (l₁.getD i d1, l₂.getD i d2) := by
  rw [List.getD_eq_getElem?_getD, getElem?_zip_eq,
    List.getElem?_eq_getElem h1, List.getElem?_eq_getElem h2,
    List.getD_eq_getElem?_getD, List.getD_eq_getElem?_getD,
    List.getElem?_eq_getElem h1, List.getElem?_eq_getElem h2]
  rfl

theorem getD_mem_of_lt {α : Type} (l : List α) (i : Nat) (d : α) (h : i < l.length) :
    l.getD i d ∈ l := by
  rw [List.getD_eq_getElem?_getD, List.getElem?_eq_getElem h]
  exact List.getElem_mem h

/-- Claim C3: `translate_ttml` is all-or-nothing.  When the translation
function's output length differs from the number of extracted locations,
nothing at all is written — the returned tree is the input tree itself —
and the reported count is 0.  When the lengths agree, the count is the
location count and every location's field holds the translated string of
the same index. -/
theorem translate_ttml_all_or_nothing (root : Elem)
    (translate_fn : List String → String → List String) (lang : String) :
    ((translate_fn (docTexts root) lang).length ≠ (line_nodes root).length →
      translate_ttml root translate_fn lang = (root, 0))
    ∧ ((translate_fn (docTexts root) lang).length = (line_nodes root).length →
      (translate_ttml root translate_fn lang).2 = (line_nodes root).length
      ∧ ∀ i, i < (line_nodes root).length →
        (getAt ((line_nodes root).getD i (([] : List Nat), Attr.text)).1
            (translate_ttml root translate_fn lang).1).map
          (fun n => Elem.fieldOf n
            ((line_nodes root).getD i (([] : List Nat), Attr.text)).2)
        = some (some ((translate_fn (docTexts root) lang).getD i ""))) := by
  have hlen_texts : (docTexts root).length = (line_nodes root).length :=
    List.length_map _ _
  constructor
  · intro hne
    by_cases hemp : (docTexts root).isEmpty
    · simp only [translate_ttml]
      rw [if_pos hemp]
    · simp only [translate_ttml]
      rw [if_neg hemp, if_neg hne]
  · intro heq
    by_cases hemp : (docTexts root).isEmpty
    · have h0 : (line_nodes root).length = 0 := by
        rw [← hlen_texts, List.isEmpty_iff.mp hemp]
        rfl
      constructor
      · simp only [translate_ttml]
        rw [if_pos hemp, h0]
      · intro i hi
        rw [h0] at hi
        omega
    · have hres : translate_ttml root translate_fn lang
          = (writeAll root ((line_nodes root).zip (translate_fn (docTexts root) lang)),
            (line_nodes root).length) := by
        simp only [translate_ttml]
        rw [if_neg hemp, if_pos heq]
      refine ⟨by rw [hres], ?_⟩
      intro i hi
      have hit : i < (translate_fn (docTexts root) lang).length := by omega
      have hkeys : ((line_nodes root).zip
          (translate_fn (docTexts root) lang)).map Prod.fst = line_nodes root :=
        List.map_fst_zip _ _ (by omega)
      have hzip : ((line_nodes root).zip (translate_fn (docTexts root) lang)).getD i dfltW
          = ((line_nodes root).getD i (([] : List Nat), Attr.text),
            (translate_fn (docTexts root) lang).getD i "") :=
        zip_getD_of_lt _ _ i hi hit _ _
      have hwlen : i < ((line_nodes root).zip
          (translate_fn (docTexts root) lang)).length := by
        rw [List.length_zip]
        omega
      have hsome : (getAt (((line_nodes root).zip
          (translate_fn (docTexts root) lang)).getD i dfltW).1.1 root).isSome = true := by
        rw [hzip]
        exact line_nodes_isSome root _ (getD_mem_of_lt _ i _ hi)
      have hmain := writeAll_field_written
        ((line_nodes root).zip (translate_fn (docTexts root) lang)) root
        (by rw [hkeys]; exact line_nodes_nodup root) i hwlen hsome
      rw [hzip] at hmain
      rw [hres]
      exact hmain

theorem translate_ttml_all_or_nothing_witness :
    translate_ttml egDoc (fun _ _ => ["a", "b"]) "es" = (egDoc, 0) :=
  (translate_ttml_all_or_nothing egDoc (fun _ _ => ["a", "b"]) "es").1 (by decide)

/-- Claim C4: `translate_ttml` mutates only the text/tail values at the
extracted locations.  At every path of the document, the tag, the
attribute list, and the number (and order) of children are unchanged, and
every text/tail field that is not an extracted location is unchanged. -/
theorem translate_ttml_frame (root : Elem)
    (translate_fn : List String → String → List String) (lang : String) :
    (∀ π : List Nat,
      (getAt π (translate_ttml root translate_fn lang).1).map Elem.tag
        = (getAt π root).map Elem.tag)
    ∧ (∀ π : List Nat,
      (getAt π (translate_ttml root translate_fn lang).1).map Elem.attrs
        = (getAt π root).map Elem.attrs)
    ∧ (∀ π : List Nat,
      (getAt π (translate_ttml root translate_fn lang).1).map
          (fun n => (Elem.children n).length)
        = (getAt π root).map (fun n => (Elem.children n).length))
    ∧ (∀ (π : List Nat) (fq : Attr), (π, fq) ∉ line_nodes root →
      (getAt π (translate_ttml root translate_fn lang).1).map
          (fun n => Elem.fieldOf n fq)
        = (getAt π root).map (fun n => Elem.fieldOf n fq)) := by
  have hres : (translate_ttml root translate_fn lang).1 = root
      ∨ (translate_ttml root translate_fn lang).1
        = writeAll root ((line_nodes root).zip (translate_fn (docTexts root) lang)) := by
    by_cases hemp : (docTexts root).isEmpty
    · left
      simp only [translate_ttml]
      rw [if_pos hemp]
    · by_cases hlen : (translate_fn (docTexts root) lang).length = (line_nodes root).length
      · right
        simp only [translate_ttml]
        rw [if_neg hemp, if_pos hlen]
      · left
        simp only [translate_ttml]
        rw [if_neg hemp, if_neg hlen]
  rcases hres with hres | hres
  · rw [hres]
    exact ⟨fun _ => rfl, fun _ => rfl, fun _ => rfl, fun _ _ _ => rfl⟩
  · rw [hres]
    refine ⟨fun π => writeAll_tag _ root π, fun π => writeAll_attrs _ root π,
      fun π => writeAll_childCount _ root π, ?_⟩
    intro π fq hnotin
    apply writeAll_field_not_mem
    intro hmem
    rcases List.mem_map.mp hmem with ⟨w, hw, hfst⟩
    have : w.1 ∈ line_nodes root := (List.of_mem_zip hw).1
    rw [hfst] at this
    exact hnotin this

theorem translate_ttml_frame_witness :
    (getAt [0, 0, 1] (translate_ttml egDoc (fun ts _ => ts.map (fun s => s ++ "9")) "es").1).map
        (fun n => Elem.fieldOf n Attr.text)
      = (getAt [0, 0, 1] egDoc).map (fun n => Elem.fieldOf n Attr.text) :=
  (translate_ttml_frame egDoc (fun ts _ => ts.map (fun s => s ++ "9")) "es").2.2.2
    [0, 0, 1] Attr.text (by decide)
